import Mathlib

/-!
Shallow embedding of the `votalizer` lockout-violation detector
(`src/main.rs`, `src/tower.rs`) together with proofs that check the
natural-language specification against the code.

Modelling conventions:
* `Slot`, `Pubkey` and `Signature` are modelled as `Nat` (signatures and
  account addresses are opaque identifiers; only equality matters).
* Rust `HashSet<Slot>` becomes `Finset Nat`.
* Rust `BTreeMap<Slot, HashSet<Slot>>` becomes an association list
  `List (Nat × Finset Nat)`.  New keys are appended at the back, so the
  list order records insertion order (ghost information useful when the
  spec speaks about "oldest-inserted"); `BTreeMap::keys().next()` (the
  numerically smallest key) is modelled by taking the minimum of the keys.
* `VecDeque` becomes `List` with the front of the deque at the head.
* A Rust `panic!` / failed `assert!` is modelled by returning `none`.
-/

/-- A slot number (`solana_sdk::clock::Slot`, a `u64`). -/
abbrev Slot := Nat

/-- The fixed tower capacity, `solana_vote_program::vote_state::MAX_LOCKOUT_HISTORY`. -/
def MAX_LOCKOUT_HISTORY : Nat := 31

/-- Embedding of `solana_vote_program::vote_state::Lockout`
(`{ slot, confirmation_count }`); the spec gives its derived operations in §3. -/
structure Lockout where
  slot : Slot
  confirmation_count : Nat
deriving DecidableEq, Repr

/-- `Lockout::new(slot)`: a fresh lockout with confirmation count 1 (spec §4.2 step 3). -/
def Lockout.new (slot : Slot) : Lockout := { slot := slot, confirmation_count := 1 }

/-- `Lockout::default()`: the zero-valued sentinel entry. -/
def Lockout.sentinel : Lockout := { slot := 0, confirmation_count := 0 }

/-- `Lockout::last_locked_out_slot = slot + 2^confirmation_count` (spec §3). -/
def Lockout.lastLockedOutSlot (l : Lockout) : Slot :=
  l.slot + 2 ^ l.confirmation_count

/-- `Lockout::is_locked_out_at_slot(next)`: `next <= last_locked_out_slot` (spec §3). -/
def Lockout.isLockedOutAtSlot (l : Lockout) (nextSlot : Slot) : Bool :=
  nextSlot ≤ l.lastLockedOutSlot

/-- One stack entry, `(Lockout, Signature)`. -/
abbrev VoteRecord := Lockout × Nat

/-- The slot→ancestor-set map `BTreeMap<Slot, HashSet<Slot>>`, as an
association list whose order records insertion order (oldest first). -/
abbrev AncMap := List (Nat × Finset Nat)

/-- `map.contains_key(&k)`. -/
def containsSlot (m : AncMap) (k : Nat) : Bool := m.any (fun p => p.1 = k)

/-- `map.get(&k)`. -/
def lookupSlot (m : AncMap) (k : Nat) : Option (Finset Nat) :=
  (m.find? (fun p => p.1 = k)).map Prod.snd

/-- `BTreeMap::insert(k, v)`: replace the value if `k` is present, otherwise
append the new key (appending keeps the insertion order visible). -/
def insertMap (m : AncMap) (k : Nat) (v : Finset Nat) : AncMap :=
  if containsSlot m k then m.map (fun p => if p.1 = k then (k, v) else p)
  else m ++ [(k, v)]

/-- `MAX_TRACKED_ANCESTORS` from `main.rs`. -/
def MAX_TRACKED_ANCESTORS : Nat := 10 * 1024

/-- `MAX_TRACKED_SLOTS` from `main.rs`. -/
def MAX_TRACKED_SLOTS : Nat := 10 * 1024

/-- One pass of `while ancestors.len() > cap { remove min }`, with explicit
fuel so the definition stays structurally recursive and executable. -/
def dropSmallFuel : Nat → Nat → Finset Nat → Finset Nat
  | 0, _, s => s
  | fuel + 1, cap, s =>
    if h : cap < s.card then
      dropSmallFuel fuel cap
        (s.erase (s.min' (Finset.card_pos.mp (Nat.lt_of_le_of_lt (Nat.zero_le cap) h))))
    else s

/-- The ancestor-set capping loop of `main.rs` (`while ancestors.len() >
MAX_TRACKED_ANCESTORS { remove the minimum }`), applied with enough fuel. -/
def capAncestors (cap : Nat) (s : Finset Nat) : Finset Nat :=
  dropSmallFuel s.card cap s

/-- One pass of the map-level eviction loop `while slot_ancestors.len() >
MAX_TRACKED_SLOTS { remove the first (numerically smallest) key }`. -/
def evictFuel : Nat → Nat → AncMap → AncMap
  | 0, _, m => m
  | fuel + 1, cap, m =>
    if m.length ≤ cap then m
    else
      match (m.map Prod.fst).min? with
      | none => m
      | some k => evictFuel fuel cap (m.filter (fun p => p.1 ≠ k))

/-- The map-level eviction loop of `main.rs`, applied with enough fuel. -/
def evictWhileMap (cap : Nat) (m : AncMap) : AncMap :=
  evictFuel m.length cap m

/-- The slot-event branch of the `main.rs` event loop before the map-level
eviction: the duplicate-slot `assert!` (modelled as `none` = process abort),
`entry(parent).or_default()`, building the capped ancestor set, and inserting
the new entry. -/
def recordSlotRaw (m : AncMap) (slot parent : Nat) : Option AncMap :=
  if containsSlot m slot then none
  else
    let m1 := if containsSlot m parent then m else m ++ [(parent, (∅ : Finset Nat))]
    let parentAnc := (lookupSlot m1 parent).getD ∅
    let ancestors := capAncestors MAX_TRACKED_ANCESTORS (insert parent parentAnc)
    some (insertMap m1 slot ancestors)

/-- The full slot-event branch of the `main.rs` event loop: record the slot,
then evict whole map entries while over `MAX_TRACKED_SLOTS`. -/
def recordSlot (m : AncMap) (slot parent : Nat) : Option AncMap :=
  (recordSlotRaw m slot parent).map (evictWhileMap MAX_TRACKED_SLOTS)

/-- The forensic incident report (`Incident` in `main.rs` is a rendered
string; here it is the structured data that string is printed from). -/
structure Incident where
  account : Nat
  signature : Nat
  voteSlot : Slot
  rootSlot : Slot
  lastLockoutSlot : Slot
  towerDump : List (Slot × Nat × Slot × Nat)
  forkFromVote : List Slot
  forkFromLockout : List Slot
  commonAncestors : List Slot
  history : List (Nat × List Slot)
deriving DecidableEq, Repr

/-- Sort a finite set of slots into a descending list (the Rust code sorts a
vector ascending and reverses it). -/
def sortedDescending (s : Finset Nat) : List Nat :=
  (s.sort (· ≤ ·)).reverse

/-- The per-validator tower state (`struct Tower`). -/
structure Tower where
  votes : List VoteRecord
  root_slot : Option Slot
  vote_history : List (Nat × List Slot)
deriving DecidableEq, Repr

/-- `Tower::default()`: the stack pre-filled with `MAX_LOCKOUT_HISTORY`
zero-valued sentinel entries, no root, empty history. -/
def towerDefault : Tower :=
  { votes := List.replicate MAX_LOCKOUT_HISTORY (Lockout.sentinel, 0)
    root_slot := none
    vote_history := [] }

/-- The alternative start state described by spec §9 (design note): a
genuinely empty stack instead of the sentinel fill.  This definition follows
the spec's words; it exists only to compare with `towerDefault`. -/
def towerEmptyStart : Tower :=
  { votes := [], root_slot := none, vote_history := [] }

/-- `Tower::last_lockout()`: the lockout of the back (most recent) entry. -/
def Tower.lastLockout (t : Tower) : Option Lockout :=
  t.votes.getLast?.map Prod.fst

/-- `Tower::last_voted_slot()`. -/
def Tower.lastVotedSlot (t : Tower) : Option Slot :=
  t.lastLockout.map Lockout.slot

/-- `Tower::pop_expired_votes`: pop from the back while the back entry is not
locked out at the next vote slot. -/
def popExpiredVotes (nextVoteSlot : Slot) (votes : List VoteRecord) : List VoteRecord :=
  ((votes.reverse).dropWhile (fun v => ! v.1.isLockedOutAtSlot nextVoteSlot)).reverse

/-- The body of `Tower::double_lockouts`, carrying the running index `i`;
`depth` is the stack depth captured before the loop. -/
def bumpFrom (depth : Nat) : Nat → List VoteRecord → List VoteRecord
  | _, [] => []
  | i, v :: rest =>
    (if i + v.1.confirmation_count < depth then
      ({ v.1 with confirmation_count := v.1.confirmation_count + 1 }, v.2)
     else v) :: bumpFrom depth (i + 1) rest

/-- `Tower::double_lockouts`: bump the confirmation count of entry `i` when
`stack_depth > i + confirmation_count`. -/
def doubleLockouts (votes : List VoteRecord) : List VoteRecord :=
  bumpFrom votes.length 0 votes

/-- Build the incident report (the body of the violation branch in
`process_vote_slot` / `write_incident_report`).  `t1` is the tower after the
expiry step, `top` its back entry, `nextAnc` the ancestors of the vote slot. -/
def buildIncident (addr voteSlot sig : Nat) (anc : AncMap) (root : Nat)
    (top : Lockout) (nextAnc : Finset Nat) (t1 : Tower) : Incident :=
  let nextF := nextAnc.filter (fun s => root ≤ s)
  -- the source `unwrap`s this lookup; it is guarded by a `contains_key` check
  let lockF := ((lookupSlot anc top.slot).getD ∅).filter (fun s => root ≤ s)
  let common := nextF ∩ lockF
  { account := addr
    signature := sig
    voteSlot := voteSlot
    rootSlot := root
    lastLockoutSlot := top.lastLockedOutSlot
    towerDump := t1.votes.map (fun v =>
      (v.1.slot, v.1.confirmation_count, v.1.lastLockedOutSlot, v.2))
    forkFromVote := sortedDescending (nextF \ common)
    forkFromLockout := sortedDescending (lockF \ common)
    commonAncestors := sortedDescending common
    history := t1.vote_history }

/-- The violation-check cascade of `process_vote_slot`: every missing input
(`root_slot` unset, unknown root / vote-slot / top-slot ancestry, empty
stack) skips the check and yields `none`. -/
def violationCheck (addr voteSlot sig : Nat) (anc : AncMap) (rootOpt : Option Slot)
    (t1 : Tower) : Option Incident :=
  match rootOpt with
  | none => none
  | some root =>
    if containsSlot anc root then
      match lookupSlot anc voteSlot with
      | none => none
      | some nextAnc =>
        match t1.lastLockout with
        | none => none
        | some top =>
          if containsSlot anc top.slot then
            if top.slot ∈ nextAnc then none
            else some (buildIncident addr voteSlot sig anc root top nextAnc t1)
          else none
    else none

/-- The part of `Tower::process_vote_slot` after the expiry step: the
violation check, then stack maintenance (evict the front and advance the root
when the stack is at capacity, push the new vote), then `double_lockouts`. -/
def processAfterExpiry (t1 : Tower) (addr voteSlot sig : Nat) (anc : AncMap) :
    Option Incident × Tower :=
  let maybeIncident := violationCheck addr voteSlot sig anc t1.root_slot t1
  let evict := t1.votes.length = MAX_LOCKOUT_HISTORY
  let votes2 := if evict then t1.votes.drop 1 else t1.votes
  let root2 :=
    if evict then
      match t1.votes.head? with
      | some v => some v.1.slot
      | none => t1.root_slot   -- unreachable: at capacity the stack is non-empty
    else t1.root_slot
  let votes3 := doubleLockouts (votes2 ++ [(Lockout.new voteSlot, sig)])
  (maybeIncident, { votes := votes3, root_slot := root2, vote_history := t1.vote_history })

/-- `Tower::process_vote_slot` (the spec's `registerVote`): expiry, violation
check, stack maintenance, confirmation escalation. -/
def processVoteSlot (t : Tower) (addr voteSlot sig : Nat) (anc : AncMap) :
    Option Incident × Tower :=
  processAfterExpiry { t with votes := popExpiredVotes voteSlot t.votes }
    addr voteSlot sig anc

/-- One vote-register call: `(address, slot, signature, ancestry)`. -/
abbrev VoteCall := Nat × Nat × Nat × AncMap

/-- Fold a sequence of `process_vote_slot` calls, keeping the final tower. -/
def runCalls : Tower → List VoteCall → Tower
  | t, [] => t
  | t, c :: cs => runCalls (processVoteSlot t c.1 c.2.1 c.2.2.1 c.2.2.2).2 cs

/-- Fold a sequence of `process_vote_slot` calls, also collecting every
per-call incident output. -/
def runCallsTrace : Tower → List VoteCall → Tower × List (Option Incident)
  | t, [] => (t, [])
  | t, c :: cs =>
    let r := processVoteSlot t c.1 c.2.1 c.2.2.1 c.2.2.2
    let rest := runCallsTrace r.2 cs
    (rest.1, r.1 :: rest.2)

/-- A plain sequence of vote slots registered with fixed opaque address,
signature and an empty ancestry map (ancestry never influences the state
update, only the reported incident). -/
def runVoteSlots (t : Tower) (slots : List Slot) : Tower :=
  runCalls t (slots.map (fun s => (0, s, 0, ([] : AncMap))))

/-- The slots stored in the tower stack, oldest first. -/
def towerSlots (t : Tower) : List Nat := t.votes.map (fun v => v.1.slot)

/-- The root slot, when set, is at most every slot on the stack. -/
def rootBelow (t : Tower) : Bool :=
  match t.root_slot with
  | none => true
  | some r => (towerSlots t).all (fun s => r ≤ s)

/-- The inductive state invariant used for the stack-length / root-monotonicity
claim: non-empty stack, stack within capacity, stack slots sorted (non-strictly,
because the sentinel fill repeats slot 0), root below every stack slot. -/
def TowerInv (t : Tower) : Prop :=
  t.votes ≠ [] ∧ t.votes.length ≤ MAX_LOCKOUT_HISTORY ∧
    List.Chain' (· ≤ ·) (towerSlots t) ∧ rootBelow t = true

/-- The event loop feeds `process_vote_slot` only slots strictly above the
tower's `last_voted_slot()` (`main.rs` lines 331-343). -/
def feedOK (t : Tower) (v : Slot) : Bool :=
  match t.lastVotedSlot with
  | none => true
  | some l => l < v

/-- Every call of the sequence respects the event loop's slot filter at the
state it is applied in. -/
def validCalls : Tower → List VoteCall → Bool
  | _, [] => true
  | t, c :: cs =>
    feedOK t c.2.1 && validCalls (processVoteSlot t c.1 c.2.1 c.2.2.1 c.2.2.2).2 cs

/-- Orders two optional root slots: an unset root precedes everything. -/
def rootLE : Option Nat → Option Nat → Prop
  | none, _ => True
  | some r, o => ∃ r2, o = some r2 ∧ r ≤ r2

/-- Bulk of a concrete `slot_ancestors` state at the entry-count capacity:
10238 entries with keys 12..10249. -/
def c6Tail : AncMap :=
  (List.range 10238).map (fun i => (i + 12, (∅ : Finset Nat)))

/-- A concrete `slot_ancestors` state holding exactly `MAX_TRACKED_SLOTS`
entries, whose oldest-inserted key (the list head, in this model's
insertion-ordered representation) is 10000000, while its numerically smallest
key is 11. -/
def c6State : AncMap :=
  (10000000, (∅ : Finset Nat)) :: (11, (∅ : Finset Nat)) :: c6Tail

/-- Executable check that a list of slots is non-decreasing (used to
evaluate the tower invariant on concrete states). -/
def nondecreasing : List Nat → Bool
  | [] => true
  | [_] => true
  | a :: b :: rest => a ≤ b && nondecreasing (b :: rest)

/-- The chase step of Rust's `Vec::dedup` (drop an element equal to the
previously kept one). -/
def dedupChase (prev : Nat) : List Nat → List Nat
  | [] => []
  | b :: rest => if prev = b then dedupChase prev rest else b :: dedupChase b rest

/-- Rust's `Vec::dedup`: remove consecutive repeated elements. -/
def dedupAdj : List Nat → List Nat
  | [] => []
  | a :: rest => a :: dedupChase a rest

/-- `slots.sort_unstable(); slots.dedup();` from the vote-event branch. -/
def sortDedup (l : List Nat) : List Nat :=
  dedupAdj (l.insertionSort (· ≤ ·))

/-- `slots.chunks_exact(2)`: the non-overlapping adjacent pairs. -/
def chunkPairs : List Nat → List (Nat × Nat)
  | a :: b :: rest => (a, b) :: chunkPairs rest
  | _ => []

/-- `Tower::record_vote_signature` (inline in `main.rs`): append to the
history, then drop leading history entries up to the entry whose signature is
owned by the oldest stack position. -/
def recordVoteSignature (t : Tower) (sig : Nat) (newVotes : List Slot) : Tower :=
  let history1 := t.vote_history ++ [(sig, newVotes)]
  match t.votes.head? with
  | none => { t with vote_history := history1 }
  | some v =>
    let pos := (history1.findIdx? (fun p => p.1 = v.2)).getD 0
    { t with vote_history := history1.drop pos }

/-- The vote-event branch of the `main.rs` event loop: sort and deduplicate
the slot list, run the chunks-of-2 malformation check (`none` = the process
panics), filter out slots not above `last_voted_slot`, record the signature
and feed each remaining slot through `process_vote_slot`.  Returns the new
tower, the incidents produced, and the list of slots actually fed. -/
def processVoteEvent (t : Tower) (addr sig : Nat) (slots : List Slot) (anc : AncMap) :
    Option (Tower × List Incident × List Slot) :=
  let sorted := sortDedup slots
  if (chunkPairs sorted).any (fun p => p.2 ≤ p.1) then none
  else
    let newVotes := sorted.filter (fun s =>
      match t.lastVotedSlot with
      | none => true
      | some l => l < s)
    if newVotes.isEmpty then some (t, [], newVotes)
    else
      let t1 := recordVoteSignature t sig newVotes
      let r := newVotes.foldl (fun (acc : Tower × List Incident) s =>
        let step := processVoteSlot acc.1 addr s sig anc
        (step.2, acc.2 ++ step.1.toList)) (t1, [])
      some (r.1, r.2, newVotes)

/-! ## Helper lemmas -/

theorem head?_dropWhile_false {α} (p : α → Bool) :
    ∀ (l : List α) {x : α}, (l.dropWhile p).head? = some x → p x = false := by
  intro l
  induction l with
  | nil => intro x h; simp [List.dropWhile] at h
  | cons a t ih =>
    intro x h
    rw [List.dropWhile_cons] at h
    by_cases hp : p a = true
    · rw [if_pos hp] at h
      exact ih h
    · rw [if_neg hp] at h
      simp at h
      subst h
      exact Bool.eq_false_iff.mpr hp

theorem popExpiredVotes_decomp (s : Slot) (l : List VoteRecord) :
    l = popExpiredVotes s l ++
      (l.reverse.takeWhile (fun v => ! v.1.isLockedOutAtSlot s)).reverse := by
  unfold popExpiredVotes
  conv_lhs =>
    rw [← List.reverse_reverse l,
      ← List.takeWhile_append_dropWhile
        (p := fun v => ! v.1.isLockedOutAtSlot s) (l := l.reverse),
      List.reverse_append]

/-! ## C5: the expiry step -/

/-- C5: the expiry step of `registerVote` pops exactly the maximal suffix of
top-of-stack entries whose lockout has expired relative to the new vote slot
(`slot > entry.slot + 2^entry.confirmation_count`), stops at the first entry
still locked, and leaves all entries below it unchanged: the surviving stack
is a prefix of the original, every popped entry is expired, and the surviving
top (when present) is still locked, so a locked entry is never popped. -/
theorem popExpiredVotes_pops_exactly_expired_suffix (s : Slot) (l : List VoteRecord) :
    ∃ dropped : List VoteRecord,
      l = popExpiredVotes s l ++ dropped ∧
      dropped.all (fun v => decide (v.1.slot + 2 ^ v.1.confirmation_count < s)) = true ∧
      (popExpiredVotes s l).getLast?.all
        (fun v => decide (s ≤ v.1.slot + 2 ^ v.1.confirmation_count)) = true := by
  refine ⟨(l.reverse.takeWhile (fun v => ! v.1.isLockedOutAtSlot s)).reverse,
    popExpiredVotes_decomp s l, ?_, ?_⟩
  · rw [List.all_eq_true]
    intro v hv
    rw [List.mem_reverse] at hv
    have hp := List.mem_takeWhile_imp hv
    simp only [Bool.not_eq_true'] at hp
    rw [Lockout.isLockedOutAtSlot, Lockout.lastLockedOutSlot] at hp
    simp only [decide_eq_false_iff_not, not_le] at hp
    simpa using hp
  · unfold popExpiredVotes
    cases hh : (l.reverse.dropWhile (fun v => ! v.1.isLockedOutAtSlot s)).head? with
    | none =>
      have : (l.reverse.dropWhile (fun v => ! v.1.isLockedOutAtSlot s)).reverse.getLast? = none := by
        rw [List.getLast?_reverse, hh]
      rw [this]; rfl
    | some v =>
      have hgl : (l.reverse.dropWhile (fun v => ! v.1.isLockedOutAtSlot s)).reverse.getLast? = some v := by
        rw [List.getLast?_reverse, hh]
      rw [hgl]
      have hp := head?_dropWhile_false _ _ hh
      simp only [Bool.not_eq_false'] at hp
      rw [Lockout.isLockedOutAtSlot, Lockout.lastLockedOutSlot] at hp
      simp only [decide_eq_true_eq] at hp
      simpa using hp

/-! ## Sorted-deduplicated slot lists (C9, C10) -/

theorem dedupChase_subset {x : Nat} :
    ∀ (prev : Nat) (l : List Nat), x ∈ dedupChase prev l → x ∈ l := by
  intro prev l
  induction l generalizing prev with
  | nil => intro h; exact absurd h (by simp [dedupChase])
  | cons b rest ih =>
    intro h
    rw [dedupChase] at h
    by_cases hb : prev = b
    · rw [if_pos hb] at h
      exact List.mem_cons_of_mem _ (ih prev h)
    · rw [if_neg hb] at h
      rcases List.mem_cons.mp h with h1 | h2
      · exact h1 ▸ List.mem_cons_self _ _
      · exact List.mem_cons_of_mem _ (ih b h2)

theorem dedupChase_gt_and_pairwise :
    ∀ (l : List Nat) (prev : Nat), (prev :: l).Pairwise (· ≤ ·) →
      (∀ x ∈ dedupChase prev l, prev < x) ∧ (dedupChase prev l).Pairwise (· < ·) := by
  intro l
  induction l with
  | nil => intro prev _; exact ⟨by simp [dedupChase], by simp [dedupChase]⟩
  | cons b rest ih =>
    intro prev h
    rw [List.pairwise_cons] at h
    obtain ⟨hle, htail⟩ := h
    rw [dedupChase]
    by_cases hb : prev = b
    · rw [if_pos hb]
      apply ih prev
      rw [List.pairwise_cons]
      exact ⟨fun x hx => hle x (List.mem_cons_of_mem _ hx),
        (List.pairwise_cons.mp htail).2⟩
    · rw [if_neg hb]
      obtain ⟨ihgt, ihpw⟩ := ih b htail
      have hpb : prev < b :=
        lt_of_le_of_ne (hle b (List.mem_cons_self _ _)) hb
      constructor
      · intro x hx
        rcases List.mem_cons.mp hx with h1 | h2
        · exact h1 ▸ hpb
        · exact lt_trans hpb (ihgt x h2)
      · exact List.pairwise_cons.mpr ⟨ihgt, ihpw⟩

theorem sortDedup_pairwise_lt (l : List Nat) :
    (sortDedup l).Pairwise (· < ·) := by
  unfold sortDedup
  have hs : (l.insertionSort (· ≤ ·)).Sorted (· ≤ ·) := List.sorted_insertionSort _ l
  cases he : l.insertionSort (· ≤ ·) with
  | nil => simp [dedupAdj]
  | cons a t =>
    rw [he] at hs
    rw [dedupAdj]
    obtain ⟨hgt, hpw⟩ := dedupChase_gt_and_pairwise t a hs
    exact List.pairwise_cons.mpr ⟨hgt, hpw⟩

theorem mem_sortDedup {x : Nat} {l : List Nat} (h : x ∈ sortDedup l) : x ∈ l := by
  unfold sortDedup at h
  cases he : l.insertionSort (· ≤ ·) with
  | nil => rw [he] at h; exact absurd h (by simp [dedupAdj])
  | cons a t =>
    rw [he, dedupAdj] at h
    have : x ∈ l.insertionSort (· ≤ ·) := by
      rw [he]
      rcases List.mem_cons.mp h with h1 | h2
      · exact h1 ▸ List.mem_cons_self _ _
      · exact List.mem_cons_of_mem _ (dedupChase_subset a t h2)
    exact (List.mem_insertionSort _).mp this

theorem chunkPairs_all_lt :
    ∀ (l : List Nat), l.Pairwise (· < ·) →
      ((chunkPairs l).all fun p => decide (p.1 < p.2)) = true
  | [], _ => rfl
  | [_], _ => rfl
  | a :: b :: rest, h => by
    rw [chunkPairs, List.all_cons]
    have h1 := List.pairwise_cons.mp h
    have h2 := List.pairwise_cons.mp h1.2
    refine (Bool.and_eq_true _ _).mpr ⟨?_, chunkPairs_all_lt rest h2.2⟩
    exact decide_eq_true (h1.1 b (List.mem_cons_self _ _))

/-! ## C10: the chunks-of-2 malformation check can never fire -/

/-- C10: after sorting and deduplicating an incoming vote's slot list, the
list is strictly increasing, so every non-overlapping adjacent pair examined
by the chunks-of-2 check satisfies `pair[0] < pair[1]`, and the abort (panic)
branch of the vote-event handler is unreachable for all inputs. -/
theorem voteEvent_malformation_check_unreachable (t : Tower) (addr sig : Nat)
    (slots : List Slot) (anc : AncMap) :
    ((chunkPairs (sortDedup slots)).all fun p => decide (p.1 < p.2)) = true ∧
    (processVoteEvent t addr sig slots anc).isSome = true := by
  have hall := chunkPairs_all_lt (sortDedup slots) (sortDedup_pairwise_lt slots)
  refine ⟨hall, ?_⟩
  have hcond : ((chunkPairs (sortDedup slots)).any fun p => p.2 ≤ p.1) = false := by
    rw [List.any_eq_false]
    intro p hp
    have hlt := List.all_eq_true.mp hall p hp
    simp only [decide_eq_true_eq] at hlt
    simp only [Bool.not_eq_true, decide_eq_false_iff_not, not_le]
    exact hlt
  simp only [processVoteEvent, hcond, Bool.false_eq_true, if_false]
  split <;> simp

/-! ## C9: the vote-event slot filter -/

/-- C9: for every incoming vote event, only the slots strictly greater than
the tower's current `lastVotedSlot()` are fed to `registerVote`, in ascending
order; a vote event whose slots are all at most `lastVotedSlot()` causes zero
`registerVote` calls and leaves the tower (stack, root and history)
unchanged. -/
theorem voteEvent_feeds_only_new_slots_ascending (t : Tower) (addr sig : Nat)
    (slots : List Slot) (anc : AncMap) :
    ∃ t2 incs fed,
      processVoteEvent t addr sig slots anc = some (t2, incs, fed) ∧
      (∀ l, t.lastVotedSlot = some l → fed.all (fun s => decide (l < s)) = true) ∧
      fed.Pairwise (· < ·) ∧
      (∀ l, t.lastVotedSlot = some l → slots.all (fun s => decide (s ≤ l)) = true →
        fed = [] ∧ t2 = t ∧ incs = []) := by
  have hcond : ((chunkPairs (sortDedup slots)).any fun p => p.2 ≤ p.1) = false := by
    rw [List.any_eq_false]
    intro p hp
    have hlt := List.all_eq_true.mp
      (chunkPairs_all_lt (sortDedup slots) (sortDedup_pairwise_lt slots)) p hp
    simp only [decide_eq_true_eq] at hlt
    simp only [Bool.not_eq_true, decide_eq_false_iff_not, not_le]
    exact hlt
  cases hlv : t.lastVotedSlot with
  | none =>
    simp only [processVoteEvent, hcond, hlv, Bool.false_eq_true, if_false]
    split
    · exact ⟨t, [], _, rfl, by simp [hlv], by
        exact (sortDedup_pairwise_lt slots).sublist (List.filter_sublist _),
        by simp [hlv]⟩
    · exact ⟨_, _, _, rfl, by simp [hlv], by
        exact (sortDedup_pairwise_lt slots).sublist (List.filter_sublist _),
        by simp [hlv]⟩
  | some l =>
    have hpw : ((sortDedup slots).filter fun s => decide (l < s)).Pairwise (· < ·) :=
      (sortDedup_pairwise_lt slots).sublist (List.filter_sublist _)
    have hfa : ∀ l2, some l = some l2 →
        (((sortDedup slots).filter fun s => decide (l < s)).all
          fun s => decide (l2 < s)) = true := by
      intro l2 hl2
      cases hl2
      rw [List.all_eq_true]
      intro s hs
      exact (List.mem_filter.mp hs).2
    simp only [processVoteEvent, hcond, hlv, Bool.false_eq_true, if_false]
    split
    next hemp =>
      refine ⟨t, [], _, rfl, hfa, hpw, ?_⟩
      intro l2 hl2 _
      cases hl2
      exact ⟨List.isEmpty_iff.mp hemp, rfl, rfl⟩
    next hemp =>
      refine ⟨_, _, _, rfl, hfa, hpw, ?_⟩
      intro l2 hl2 hall
      cases hl2
      exfalso
      apply hemp
      rw [List.isEmpty_iff, List.filter_eq_nil_iff]
      intro s hs
      have hsl : s ≤ l := by
        have := List.all_eq_true.mp hall s (mem_sortDedup hs)
        simpa using this
      simp only [decide_eq_true_eq, not_lt]
      exact hsl

/-- Witness for C9: a stale vote event (`[0]`, not above the default tower's
`lastVotedSlot() = 0`) is dropped whole: no slot is fed and the tower is
unchanged. -/
theorem voteEvent_feeds_only_new_slots_ascending_witness :
    ∃ t2 incs fed,
      processVoteEvent towerDefault 0 0 [0] [] = some (t2, incs, fed) ∧
      fed = [] ∧ t2 = towerDefault ∧ incs = [] := by
  obtain ⟨t2, incs, fed, heq, _, _, h4⟩ :=
    voteEvent_feeds_only_new_slots_ascending towerDefault 0 0 [0] []
  obtain ⟨hfed, ht, hincs⟩ := h4 0 (by decide) (by decide)
  exact ⟨t2, incs, fed, heq, hfed, ht, hincs⟩

/-! ## C1: exact conditions for emitting an incident -/

theorem lastLockout_mk (V : List VoteRecord) (r : Option Slot)
    (h : List (Nat × List Slot)) :
    Tower.lastLockout { votes := V, root_slot := r, vote_history := h } =
      V.getLast?.map Prod.fst := rfl

/-- C1: `registerVote` (`process_vote_slot`) returns an incident if and only
if the root slot is set, the ancestry map has entries for the root slot, the
vote slot and the post-expiry top entry's slot, the stack is non-empty after
the expiry step (`getLast? = some top`), and the top entry's slot is not
among the vote slot's ancestors; in every other case (any input unknown or
the root unset) it returns none. -/
theorem registerVote_incident_iff (t : Tower) (addr v sig : Nat) (anc : AncMap) :
    (processVoteSlot t addr v sig anc).1.isSome = true ↔
      ∃ root, t.root_slot = some root ∧ containsSlot anc root = true ∧
        ∃ nextAnc, lookupSlot anc v = some nextAnc ∧
          ∃ top : VoteRecord, (popExpiredVotes v t.votes).getLast? = some top ∧
            containsSlot anc top.1.slot = true ∧ top.1.slot ∉ nextAnc := by
  show (violationCheck addr v sig anc t.root_slot
    { t with votes := popExpiredVotes v t.votes }).isSome = true ↔ _
  cases hroot : t.root_slot with
  | none => simp [violationCheck]
  | some root =>
    simp only [violationCheck, Tower.lastLockout]
    by_cases hcr : containsSlot anc root = true
    · rw [if_pos hcr]
      cases hlu : lookupSlot anc v with
      | none => simp [hcr, hlu]
      | some nextAnc =>
        cases hll : (popExpiredVotes v t.votes).getLast? with
        | none => simp [hcr, hlu, hll]
        | some top =>
          by_cases hct : containsSlot anc top.1.slot = true
          · by_cases hmem : top.1.slot ∈ nextAnc
            · simp [hcr, hlu, hll, hct, hmem]
            · simp [hcr, hlu, hll, hct, hmem]
          · simp [hcr, hlu, hll, hct]
    · simp [hcr]

/-! ## C8: sentinel-filled start versus empty start -/

theorem popExpired_sentinels (n : Nat) (v : Slot) (hv : 2 ≤ v) :
    popExpiredVotes v (List.replicate n (Lockout.sentinel, 0)) = [] := by
  have hcond : (! (Lockout.sentinel, (0 : Nat)).1.isLockedOutAtSlot v) = true := by
    have h : (Lockout.sentinel, (0 : Nat)).1.isLockedOutAtSlot v = decide (v ≤ 1) := rfl
    rw [h]
    simp only [Bool.not_eq_true', decide_eq_false_iff_not, not_le]
    exact hv
  unfold popExpiredVotes
  rw [List.reverse_replicate]
  induction n with
  | zero => rfl
  | succ n ih =>
    rw [List.replicate_succ, List.dropWhile_cons, if_pos hcond]
    exact ih

/-- C8 (amended): provided the first real vote's slot is at least 2 (above
the sentinel entries' derived expiry slot 1), the sentinel-filled default
tower and the empty-start tower behave identically: the first `registerVote`
gives the same incident output and the same state, and every subsequent call
sequence gives the same towers and the same incident outputs.  (For vote
slots 0 and 1 the sentinels do not expire and the two starts differ; see the
counterexample.) -/
theorem sentinel_and_empty_start_equivalent (addr v sig : Nat) (anc : AncMap)
    (calls : List VoteCall) (hv : 2 ≤ v) :
    processVoteSlot towerDefault addr v sig anc
      = processVoteSlot towerEmptyStart addr v sig anc ∧
    runCallsTrace (processVoteSlot towerDefault addr v sig anc).2 calls
      = runCallsTrace (processVoteSlot towerEmptyStart addr v sig anc).2 calls := by
  have h1 : processVoteSlot towerDefault addr v sig anc
      = processVoteSlot towerEmptyStart addr v sig anc := by
    unfold processVoteSlot
    simp only [towerDefault, towerEmptyStart]
    rw [popExpired_sentinels _ _ hv]
    rfl
  exact ⟨h1, by rw [h1]⟩

/-- Witness for C8 (amended): at first vote slot 2 both starts agree. -/
theorem sentinel_and_empty_start_equivalent_witness :
    2 ≤ 2 ∧ processVoteSlot towerDefault 0 2 0 []
      = processVoteSlot towerEmptyStart 0 2 0 [] :=
  ⟨by decide, (sentinel_and_empty_start_equivalent 0 2 0 [] [] (by decide)).1⟩

/-- Counterexample to C8 as stated: after a first real vote at slot 1 the
sentinel-filled start keeps 30 sentinel entries and acquires `root_slot = 0`
(the evicted sentinel), while the empty start has a one-entry stack and no
root, so the two are not behaviorally equivalent after the first real vote. -/
theorem sentinel_and_empty_start_differ_at_slot_one :
    (processVoteSlot towerDefault 0 1 0 []).2.root_slot = some 0 ∧
    (processVoteSlot towerEmptyStart 0 1 0 []).2.root_slot = none ∧
    (processVoteSlot towerDefault 0 1 0 []).2.votes.length = 31 ∧
    (processVoteSlot towerEmptyStart 0 1 0 []).2.votes.length = 1 := by
  decide

/-! ## C4: confirmation escalation -/

theorem bumpFrom_getElem? (depth : Nat) :
    ∀ (l : List VoteRecord) (j i : Nat),
      (bumpFrom depth j l)[i]? = (l[i]?).map (fun v =>
        if (j + i) + v.1.confirmation_count < depth then
          ({ v.1 with confirmation_count := v.1.confirmation_count + 1 }, v.2)
        else v) := by
  intro l
  induction l with
  | nil => intro j i; simp [bumpFrom]
  | cons v rest ih =>
    intro j i
    cases i with
    | zero => simp [bumpFrom]
    | succ i =>
      rw [bumpFrom]
      simp only [List.getElem?_cons_succ]
      rw [ih (j + 1) i]
      have : j + 1 + i = j + (i + 1) := by omega
      rw [this]

/-- C4 (amended): after the confirmation-escalation step, each stack entry's
confirmation count is incremented by exactly one when
`depth > i + confirmation_count` and is left unchanged otherwise (so it grows
by at most 1 per call, and slot and signature are untouched); consequently
`confirmation_count(i) ≤ max (previous count) (depth - i)`.  The unconditional
bound `confirmation_count(i) ≤ depth - i` of the claim does not hold once
expiry has shrunk the stack (see the counterexample). -/
theorem doubleLockouts_bump_rule (vs : List VoteRecord) (i : Nat) (v v2 : VoteRecord)
    (h1 : vs[i]? = some v) (h2 : (doubleLockouts vs)[i]? = some v2) :
    (v2.1.confirmation_count =
      if i + v.1.confirmation_count < vs.length then v.1.confirmation_count + 1
      else v.1.confirmation_count) ∧
    v2.1.confirmation_count ≤ max v.1.confirmation_count (vs.length - i) ∧
    v2.1.slot = v.1.slot ∧ v2.2 = v.2 := by
  rw [doubleLockouts, bumpFrom_getElem? vs.length vs 0 i, h1] at h2
  simp only [Option.map_some', Option.some.injEq, Nat.zero_add] at h2
  by_cases hc : i + v.1.confirmation_count < vs.length
  · rw [if_pos hc] at h2
    subst h2
    refine ⟨by rw [if_pos hc], ?_, rfl, rfl⟩
    have : v.1.confirmation_count + 1 ≤ vs.length - i := by omega
    exact le_max_of_le_right this
  · rw [if_neg hc] at h2
    subst h2
    exact ⟨by rw [if_neg hc], le_max_left _ _, rfl, rfl⟩

/-- Witness for C4 (amended): in a depth-2 stack whose oldest entry has one
confirmation, escalation bumps that entry's count to 2. -/
theorem doubleLockouts_bump_rule_witness :
    (({ slot := 5, confirmation_count := 2 } : Lockout), (0 : Nat)).1.confirmation_count =
      (if 0 + (Lockout.new 5, (0 : Nat)).1.confirmation_count <
          ([(Lockout.new 5, 0), (Lockout.new 6, 0)] : List VoteRecord).length then
        (Lockout.new 5, (0 : Nat)).1.confirmation_count + 1
      else (Lockout.new 5, (0 : Nat)).1.confirmation_count) :=
  (doubleLockouts_bump_rule [(Lockout.new 5, 0), (Lockout.new 6, 0)] 0
    (Lockout.new 5, 0) ({ slot := 5, confirmation_count := 2 }, 0)
    (by decide) (by decide)).1

set_option maxRecDepth 40000 in
/-- Counterexample to C4 as stated: registering the votes 10, 11, 12, 16 on a
fresh tower (each above the previous `lastVotedSlot`, as the event loop
feeds them) expires the entries for 11 and 12 at the vote for 16 and leaves
the stack `[(10, conf 3), (16, conf 1)]` after escalation: position 0 has
confirmation count 3 > depth - 0 = 2. -/
theorem confirmation_bound_violated_after_partial_expiry :
    ((runVoteSlots towerDefault [10, 11, 12, 16]).votes.map
      (fun v => (v.1.slot, v.1.confirmation_count))) = [(10, 3), (16, 1)] ∧
    ¬ (3 ≤ (runVoteSlots towerDefault [10, 11, 12, 16]).votes.length - 0) := by
  constructor <;> decide

/-! ## C2: duplicate block-production events -/

/-- C2 (amended): a block-production event whose slot is already present in
the ancestry map fails the `assert!` at the top of the slot branch and the
process aborts (modelled as `none`); the previously recorded entry is never
overwritten because the branch never reaches the insertion. -/
theorem duplicate_slot_event_aborts (m : AncMap) (slot parent : Nat)
    (h : containsSlot m slot = true) :
    recordSlot m slot parent = none := by
  unfold recordSlot recordSlotRaw
  rw [if_pos h]
  rfl

/-- Witness for C2 (amended): replaying slot 500 after it was recorded. -/
theorem duplicate_slot_event_aborts_witness :
    recordSlot [(500, ({3} : Finset Nat))] 500 7 = none :=
  duplicate_slot_event_aborts [(500, ({3} : Finset Nat))] 500 7 (by decide)

/-- Counterexample to C2 as stated: recording slot 500 (parent 3) succeeds,
and a second arrival of slot 500 (parent 4) returns `none` — the process
aborts on the assertion instead of logging a warning and continuing. -/
theorem duplicate_slot_event_does_not_continue :
    (recordSlot [] 500 3).isSome = true ∧
    ((recordSlot [] 500 3).bind (fun m1 => recordSlot m1 500 4)) = none := by
  constructor <;> decide

/-! ## C7: per-slot ancestor capping -/

theorem dropSmallFuel_spec :
    ∀ (fuel cap : Nat) (s : Finset Nat), s.card ≤ fuel →
      dropSmallFuel fuel cap s ⊆ s ∧
      (dropSmallFuel fuel cap s).card = min cap s.card ∧
      (∀ x ∈ dropSmallFuel fuel cap s, ∀ y ∈ s, y ∉ dropSmallFuel fuel cap s → y < x) := by
  intro fuel
  induction fuel with
  | zero =>
    intro cap s hs
    have h0 : s = ∅ := Finset.card_eq_zero.mp (Nat.le_zero.mp hs)
    subst h0
    refine ⟨Finset.Subset.refl _, by simp [dropSmallFuel], ?_⟩
    intro x hx
    exact absurd hx (by simp [dropSmallFuel])
  | succ fuel ih =>
    intro cap s hs
    rw [dropSmallFuel]
    by_cases hc : cap < s.card
    · rw [dif_pos hc]
      have hne : s.Nonempty :=
        Finset.card_pos.mp (Nat.lt_of_le_of_lt (Nat.zero_le cap) hc)
      set mn := s.min' (Finset.card_pos.mp (Nat.lt_of_le_of_lt (Nat.zero_le cap) hc)) with hmn
      have hmem : mn ∈ s := Finset.min'_mem s _
      have hcard2 : (s.erase mn).card = s.card - 1 := Finset.card_erase_of_mem hmem
      have hfuel2 : (s.erase mn).card ≤ fuel := by omega
      obtain ⟨ihsub, ihcard, ihsel⟩ := ih cap (s.erase mn) hfuel2
      refine ⟨ihsub.trans (Finset.erase_subset _ _), ?_, ?_⟩
      · rw [ihcard, hcard2]
        omega
      · intro x hx y hy hyn
        by_cases hym : y = mn
        · have hxs : x ∈ s.erase mn := ihsub hx
          have hxy : x ≠ mn := (Finset.mem_erase.mp hxs).1
          rw [hym]
          exact lt_of_le_of_ne (Finset.min'_le s x (Finset.mem_of_mem_erase hxs)) (Ne.symm hxy)
        · exact ihsel x hx y (Finset.mem_erase.mpr ⟨hym, hy⟩) hyn
    · rw [dif_neg hc]
      refine ⟨Finset.Subset.refl _, ?_, ?_⟩
      · omega
      · intro x _ y hy hyn
        exact absurd hy hyn

theorem lookupSlot_filter_bad (bad : Nat) :
    ∀ m : AncMap, lookupSlot (m.filter (fun p => p.1 ≠ bad)) bad = none := by
  intro m
  unfold lookupSlot
  rw [List.find?_eq_none.mpr, Option.map_none']
  intro p hp
  have := (List.mem_filter.mp hp).2
  simp only [ne_eq, decide_not, Bool.not_eq_true', decide_eq_false_iff_not] at this
  simp only [decide_eq_true_eq]
  exact this

theorem lookupSlot_filter_key (bad k : Nat) (v : Finset Nat) :
    ∀ m : AncMap, lookupSlot (m.filter (fun p => p.1 ≠ bad)) k = some v →
      lookupSlot m k = some v := by
  intro m
  induction m with
  | nil => intro h; simp [lookupSlot] at h
  | cons p rest ih =>
    intro h
    by_cases hk : k = bad
    · subst hk
      rw [lookupSlot_filter_bad] at h
      exact absurd h (by simp)
    · rw [List.filter_cons] at h
      by_cases hp : p.1 = bad
      · rw [if_neg (by simp [hp])] at h
        unfold lookupSlot
        rw [List.find?_cons_of_neg _
          (by simp only [decide_eq_true_eq, hp]; exact fun hbk => hk hbk.symm)]
        exact ih h
      · rw [if_pos (by simp [hp])] at h
        unfold lookupSlot at h ⊢
        by_cases hpk : p.1 = k
        · rw [List.find?_cons_of_pos _ (by simp [hpk])] at h ⊢
          exact h
        · rw [List.find?_cons_of_neg _ (by simp [hpk])] at h ⊢
          exact ih h

theorem lookupSlot_evictFuel (cap : Nat) :
    ∀ (fuel : Nat) (m : AncMap) (k : Nat) (v : Finset Nat),
      lookupSlot (evictFuel fuel cap m) k = some v → lookupSlot m k = some v := by
  intro fuel
  induction fuel with
  | zero => intro m k v h; exact h
  | succ fuel ih =>
    intro m k v h
    rw [evictFuel] at h
    by_cases hl : m.length ≤ cap
    · rwa [if_pos hl] at h
    · rw [if_neg hl] at h
      cases hmin : (m.map Prod.fst).min? with
      | none => rwa [hmin] at h
      | some b =>
        rw [hmin] at h
        exact lookupSlot_filter_key b k v m (ih _ k v h)

theorem containsSlot_false_find_none {m : AncMap} {k : Nat}
    (h : containsSlot m k = false) : m.find? (fun p => p.1 = k) = none := by
  rw [List.find?_eq_none]
  intro p hp
  have := List.any_eq_false.mp h p hp
  simpa using this

theorem lookupSlot_map_replace (k : Nat) (v : Finset Nat) :
    ∀ m : AncMap, containsSlot m k = true →
      lookupSlot (m.map (fun p => if p.1 = k then (k, v) else p)) k = some v := by
  intro m
  induction m with
  | nil => intro hc; simp [containsSlot] at hc
  | cons p rest ih =>
    intro hc
    unfold lookupSlot
    by_cases hp : p.1 = k
    · rw [List.map_cons, if_pos hp, List.find?_cons_of_pos _ (by simp)]
      rfl
    · rw [List.map_cons, if_neg hp, List.find?_cons_of_neg _ (by simp [hp])]
      have hc2 : containsSlot rest k = true := by
        unfold containsSlot at hc
        rw [List.any_cons] at hc
        rcases (Bool.or_eq_true _ _).mp hc with h1 | h2
        · exact absurd (of_decide_eq_true h1) hp
        · exact h2
      exact ih hc2

theorem lookupSlot_insertMap_self (m : AncMap) (k : Nat) (v : Finset Nat) :
    lookupSlot (insertMap m k v) k = some v := by
  by_cases hc : containsSlot m k = true
  · rw [insertMap, if_pos hc]
    exact lookupSlot_map_replace k v m hc
  · rw [insertMap, if_neg hc]
    unfold lookupSlot
    rw [List.find?_append, containsSlot_false_find_none (Bool.eq_false_iff.mpr hc)]
    simp

theorem lookupSlot_orDefault_parent (m : AncMap) (parent : Nat) :
    (lookupSlot (if containsSlot m parent then m
        else m ++ [(parent, (∅ : Finset Nat))]) parent).getD ∅ =
      (lookupSlot m parent).getD ∅ := by
  by_cases hp : containsSlot m parent = true
  · rw [if_pos hp]
  · rw [if_neg hp]
    have hnone : lookupSlot m parent = none := by
      unfold lookupSlot
      rw [containsSlot_false_find_none (Bool.eq_false_iff.mpr hp), Option.map_none']
    have happ : lookupSlot (m ++ [(parent, (∅ : Finset Nat))]) parent = some ∅ := by
      unfold lookupSlot
      unfold lookupSlot at hnone
      rw [List.find?_append]
      rw [containsSlot_false_find_none (Bool.eq_false_iff.mpr hp)]
      simp
    rw [hnone, happ]
    rfl

/-- C7: for every successfully recorded block-production event
`{slot, parent}` whose entry survives the map-level eviction, the recorded
ancestor set of `slot` is the ancestor set of `parent` united with
`{parent}`, capped by repeatedly dropping the numerically smallest value:
it is a subset of the union, its size is the union's size clamped to
`MAX_TRACKED_ANCESTORS`, and every dropped value is smaller than every kept
value, so when the uncapped union exceeds the cap exactly the cap-many
largest-valued ancestors remain. -/
theorem recordSlot_caps_to_largest (m : AncMap) (slot parent : Nat)
    (m2 : AncMap) (A : Finset Nat)
    (h1 : recordSlot m slot parent = some m2)
    (h2 : lookupSlot m2 slot = some A) :
    A ⊆ insert parent ((lookupSlot m parent).getD ∅) ∧
    A.card = min MAX_TRACKED_ANCESTORS (insert parent ((lookupSlot m parent).getD ∅)).card ∧
    (∀ x ∈ A, ∀ y ∈ insert parent ((lookupSlot m parent).getD ∅), y ∉ A → y < x) := by
  unfold recordSlot at h1
  rw [Option.map_eq_some'] at h1
  obtain ⟨mr, hraw, hev⟩ := h1
  unfold recordSlotRaw at hraw
  by_cases hcs : containsSlot m slot = true
  · rw [if_pos hcs] at hraw
    exact absurd hraw (by simp)
  · rw [if_neg hcs] at hraw
    simp only [Option.some.injEq] at hraw
    subst hev
    subst hraw
    rw [evictWhileMap] at h2
    have h3 := lookupSlot_evictFuel MAX_TRACKED_SLOTS _ _ _ _ h2
    rw [lookupSlot_insertMap_self] at h3
    have hA : A = capAncestors MAX_TRACKED_ANCESTORS
        (insert parent ((lookupSlot m parent).getD ∅)) := by
      rw [lookupSlot_orDefault_parent] at h3
      exact (Option.some.injEq _ _ |>.mp h3).symm
    subst hA
    exact dropSmallFuel_spec _ MAX_TRACKED_ANCESTORS _ (Nat.le_refl _)

/-- Witness for C7: recording slot 5 with parent 3 into an empty map leaves
ancestor set `{3}`, whose size is the clamped size of `{3} ∪ ∅`. -/
theorem recordSlot_caps_to_largest_witness :
    ({3} : Finset Nat).card =
      min MAX_TRACKED_ANCESTORS (insert 3 ((lookupSlot ([] : AncMap) 3).getD ∅)).card :=
  (recordSlot_caps_to_largest [] 5 3 [(3, ∅), (5, {3})] {3}
    (by decide) (by decide)).2.1

/-! ## C6: map-level eviction -/

theorem filter_ne_key_length :
    ∀ (m : AncMap) (b : Nat), (m.map Prod.fst).Nodup → b ∈ m.map Prod.fst →
      (m.filter (fun p => p.1 ≠ b)).length = m.length - 1 := by
  intro m
  induction m with
  | nil => intro b _ hb; simp at hb
  | cons p rest ih =>
    intro b hnd hb
    rw [List.map_cons, List.nodup_cons] at hnd
    rw [List.filter_cons]
    by_cases hp : p.1 = b
    · rw [if_neg (by simp [hp])]
      have hrest : rest.filter (fun p => p.1 ≠ b) = rest := by
        rw [List.filter_eq_self]
        intro q hq
        have : q.1 ∈ rest.map Prod.fst := List.mem_map_of_mem _ hq
        have : q.1 ≠ b := fun he => hnd.1 (by rw [hp]; rw [he] at this; exact this)
        simpa using this
      rw [hrest]
      simp
    · rw [if_pos (by simp [hp])]
      have hbrest : b ∈ rest.map Prod.fst := by
        rw [List.map_cons] at hb
        rcases List.mem_cons.mp hb with h1 | h2
        · exact absurd h1.symm hp
        · exact h2
      have hlen := ih b hnd.2 hbrest
      have hpos : 0 < rest.length := by
        rcases rest with _ | ⟨q, rest2⟩
        · simp at hbrest
        · simp
      simp only [List.length_cons, hlen]
      omega

theorem evictFuel_spec :
    ∀ (fuel cap : Nat) (m : AncMap), m.length ≤ fuel → (m.map Prod.fst).Nodup →
      (∀ p ∈ evictFuel fuel cap m, p ∈ m) ∧
      (evictFuel fuel cap m).length = min m.length cap ∧
      (∀ p ∈ evictFuel fuel cap m, ∀ q ∈ m, q ∉ evictFuel fuel cap m → q.1 < p.1) := by
  intro fuel
  induction fuel with
  | zero =>
    intro cap m hm _
    have h0 : m = [] := List.length_eq_zero.mp (Nat.le_zero.mp hm)
    subst h0
    exact ⟨fun p hp => hp, by simp [evictFuel], fun p hp => absurd hp (by simp [evictFuel])⟩
  | succ fuel ih =>
    intro cap m hm hnd
    rw [evictFuel]
    by_cases hl : m.length ≤ cap
    · rw [if_pos hl]
      exact ⟨fun p hp => hp, (Nat.min_eq_left hl).symm, fun p _ q hq hqn => absurd hq hqn⟩
    · rw [if_neg hl]
      cases hmin : (m.map Prod.fst).min? with
      | none =>
        rw [List.min?_eq_none_iff] at hmin
        rw [List.map_eq_nil_iff] at hmin
        subst hmin
        simp at hl
      | some b =>
        obtain ⟨hbmem, hble⟩ := List.min?_eq_some_iff'.mp hmin
        have hflen : (m.filter (fun p => p.1 ≠ b)).length = m.length - 1 :=
          filter_ne_key_length m b hnd hbmem
        have hfnd : ((m.filter (fun p => p.1 ≠ b)).map Prod.fst).Nodup :=
          hnd.sublist (List.Sublist.map _ (List.filter_sublist _))
        have hffuel : (m.filter (fun p => p.1 ≠ b)).length ≤ fuel := by omega
        obtain ⟨ihsub, ihlen, ihsel⟩ := ih cap _ hffuel hfnd
        refine ⟨?_, ?_, ?_⟩
        · intro p hp
          exact (List.mem_filter.mp (ihsub p hp)).1
        · rw [ihlen, hflen]
          have h1 : min (m.length - 1) cap = cap := Nat.min_eq_right (by omega)
          have h2 : min m.length cap = cap := Nat.min_eq_right (by omega)
          rw [h1, h2]
        · intro p hp q hq hqn
          by_cases hqb : q.1 = b
          · have hpmem : p ∈ m.filter (fun p => p.1 ≠ b) := ihsub p hp
            have hpne : p.1 ≠ b := by
              have := (List.mem_filter.mp hpmem).2
              simpa using this
            have hple : b ≤ p.1 := hble p.1
              (List.mem_map_of_mem _ ((List.mem_filter.mp hpmem).1))
            rw [hqb]
            exact lt_of_le_of_ne hple (fun he => hpne he.symm)
          · have hqf : q ∈ m.filter (fun p => p.1 ≠ b) :=
              List.mem_filter.mpr ⟨hq, by simpa using hqb⟩
            exact ihsel p hp q hqf hqn

/-- C6 (amended): whenever a recorded block-production event makes the
slot-to-ancestors map exceed `MAX_TRACKED_SLOTS`, the eviction loop removes
the entry with the numerically smallest key (the first key of the
`BTreeMap`), not the oldest-inserted one, and repeats until the map is
within capacity: the surviving entries are a subset of the original map,
their number is the original size clamped to the capacity, and every evicted
key is smaller than every surviving key. -/
theorem mapEviction_removes_smallest_keys (cap : Nat) (m : AncMap)
    (hnd : (m.map Prod.fst).Nodup) :
    (∀ p ∈ evictWhileMap cap m, p ∈ m) ∧
    (evictWhileMap cap m).length = min m.length cap ∧
    (∀ p ∈ evictWhileMap cap m, ∀ q ∈ m, q ∉ evictWhileMap cap m → q.1 < p.1) :=
  evictFuel_spec m.length cap m (Nat.le_refl _) hnd

/-- Witness for C6 (amended): a two-entry map with capacity one keeps only
the larger key 5 and evicts the smaller key 3. -/
theorem mapEviction_removes_smallest_keys_witness :
    (evictWhileMap 1 [(5, ∅), (3, ∅)]).length =
      min ([(5, (∅ : Finset Nat)), (3, ∅)] : AncMap).length 1 :=
  (mapEviction_removes_smallest_keys 1 [(5, ∅), (3, ∅)] (by decide)).2.1

theorem c6Tail_key_bounds : ∀ p ∈ c6Tail, 12 ≤ p.1 ∧ p.1 ≤ 10249 := by
  intro p hp
  unfold c6Tail at hp
  rw [List.mem_map] at hp
  obtain ⟨i, hi, he⟩ := hp
  rw [List.mem_range] at hi
  rw [← he]
  constructor
  · simp
  · simp; omega

theorem c6Tail_length : c6Tail.length = 10238 := by
  unfold c6Tail; simp

theorem c6State_length : c6State.length = 10240 := by
  unfold c6State
  simp [c6Tail_length]

theorem c6State_not_contains_10250 : containsSlot c6State 10250 = false := by
  rw [containsSlot, List.any_eq_false]
  intro p hp
  unfold c6State at hp
  rcases List.mem_cons.mp hp with h1 | hp2
  · rw [h1]; simp
  · rcases List.mem_cons.mp hp2 with h2 | h3
    · rw [h2]; simp
    · have hb := c6Tail_key_bounds p h3
      simp only [Bool.not_eq_true, decide_eq_false_iff_not]
      omega

theorem c6State_contains_11 : containsSlot c6State 11 = true := by
  rw [containsSlot, List.any_eq_true]
  refine ⟨(11, ∅), ?_, by simp⟩
  unfold c6State
  exact List.mem_cons_of_mem _ (List.mem_cons_self _ _)

theorem c6State_lookup_11 : lookupSlot c6State 11 = some ∅ := by
  unfold lookupSlot c6State
  rw [List.find?_cons_of_neg _ (by simp), List.find?_cons_of_pos _ (by simp)]
  rfl

theorem c6_capAncestors :
    capAncestors MAX_TRACKED_ANCESTORS (insert 11 (∅ : Finset Nat)) =
      ({11} : Finset Nat) := by decide

theorem evictFuel_succ_le (fuel cap : Nat) (m : AncMap) (h : m.length ≤ cap) :
    evictFuel (fuel + 1) cap m = m := by
  rw [evictFuel, if_pos h]

theorem evictFuel_succ_min (fuel cap : Nat) (m : AncMap) (k : Nat)
    (hgt : ¬ m.length ≤ cap) (hmin : (m.map Prod.fst).min? = some k) :
    evictFuel (fuel + 1) cap m = evictFuel fuel cap (m.filter (fun p => p.1 ≠ k)) := by
  rw [evictFuel, if_neg hgt, hmin]

theorem c6_recordSlotRaw :
    recordSlotRaw c6State 10250 11 =
      some (c6State ++ [(10250, ({11} : Finset Nat))]) := by
  unfold recordSlotRaw
  simp only [c6State_not_contains_10250, Bool.false_eq_true, if_false,
    c6State_contains_11, if_true, c6State_lookup_11, Option.getD_some]
  rw [c6_capAncestors]
  rw [insertMap]
  simp only [c6State_not_contains_10250, Bool.false_eq_true, if_false]

theorem c6_min :
    ((c6State ++ [(10250, ({11} : Finset Nat))]).map Prod.fst).min? = some 11 := by
  rw [List.min?_eq_some_iff']
  constructor
  · rw [List.mem_map]
    refine ⟨(11, ∅), ?_, rfl⟩
    exact List.mem_append_left _
      (by unfold c6State; exact List.mem_cons_of_mem _ (List.mem_cons_self _ _))
  · intro k hk
    rw [List.mem_map] at hk
    obtain ⟨p, hp, he⟩ := hk
    rw [← he]
    rcases List.mem_append.mp hp with hpl | hpr
    · unfold c6State at hpl
      rcases List.mem_cons.mp hpl with h1 | hp2
      · rw [h1]; omega
      · rcases List.mem_cons.mp hp2 with h2 | h3
        · rw [h2]
        · have hb := c6Tail_key_bounds p h3
          omega
    · rw [List.mem_singleton.mp hpr]; omega

theorem c6_filter :
    (c6State ++ [(10250, ({11} : Finset Nat))]).filter (fun p => p.1 ≠ 11) =
      (10000000, (∅ : Finset Nat)) :: c6Tail ++ [(10250, ({11} : Finset Nat))] := by
  rw [List.filter_append]
  have h1 : c6State.filter (fun p => p.1 ≠ 11) = (10000000, (∅ : Finset Nat)) :: c6Tail := by
    unfold c6State
    rw [List.filter_cons, if_pos (by simp), List.filter_cons, if_neg (by simp)]
    rw [List.filter_eq_self.mpr]
    intro p hp
    have hb := c6Tail_key_bounds p hp
    simp only [ne_eq, decide_not, Bool.not_eq_true', decide_eq_false_iff_not]
    omega
  rw [h1]
  simp

theorem c6_recordSlot :
    recordSlot c6State 10250 11 =
      some ((10000000, (∅ : Finset Nat)) :: c6Tail ++ [(10250, ({11} : Finset Nat))]) := by
  rw [recordSlot, c6_recordSlotRaw, Option.map_some']
  refine congrArg some ?_
  rw [evictWhileMap]
  have hlen : (c6State ++ [(10250, ({11} : Finset Nat))]).length = 10240 + 1 := by
    rw [List.length_append, c6State_length]
    rfl
  have hlen3 : ((10000000, (∅ : Finset Nat)) :: c6Tail
      ++ [(10250, ({11} : Finset Nat))]).length = 10240 := by
    rw [List.cons_append, List.length_cons, List.length_append, c6Tail_length]
    rfl
  rw [hlen]
  rw [evictFuel_succ_min 10240 MAX_TRACKED_SLOTS _ 11
    (by rw [hlen]; norm_num [MAX_TRACKED_SLOTS]) c6_min]
  rw [c6_filter]
  have h10240 : (10240 : Nat) = 10239 + 1 := by norm_num
  rw [h10240]
  rw [evictFuel_succ_le 10239 MAX_TRACKED_SLOTS _
    (by rw [hlen3]; norm_num [MAX_TRACKED_SLOTS])]

/-- Counterexample to C6 as stated: starting from `c6State` — a map filled to
`MAX_TRACKED_SLOTS` entries whose oldest-inserted key (the head of the
insertion-ordered list) is 10000000 and whose numerically smallest key is 11
— recording slot 10250 with parent 11 overflows the capacity and evicts the
smallest key 11, not the oldest-inserted key 10000000, which remains in the
map: the eviction follows `BTreeMap` key order, not insertion order. -/
theorem mapEviction_evicts_smallest_not_oldest_inserted :
    (recordSlot c6State 10250 11).map (fun m2 =>
      (m2.length, containsSlot m2 10000000, containsSlot m2 11, containsSlot m2 10250)) =
      some (MAX_TRACKED_SLOTS, true, false, true) := by
  rw [c6_recordSlot, Option.map_some']
  refine congrArg some ?_
  have h1 : ((10000000, (∅ : Finset Nat)) :: c6Tail
      ++ [(10250, ({11} : Finset Nat))]).length = MAX_TRACKED_SLOTS := by
    rw [List.cons_append, List.length_cons, List.length_append, c6Tail_length]
    rfl
  have h2 : containsSlot ((10000000, (∅ : Finset Nat)) :: c6Tail
      ++ [(10250, ({11} : Finset Nat))]) 10000000 = true := by
    rw [containsSlot, List.any_eq_true]
    exact ⟨_, List.mem_cons_self _ _, by simp⟩
  have h3 : containsSlot ((10000000, (∅ : Finset Nat)) :: c6Tail
      ++ [(10250, ({11} : Finset Nat))]) 11 = false := by
    rw [containsSlot, List.any_eq_false]
    intro p hp
    rcases List.mem_cons.mp hp with hh | ht
    · rw [hh]; simp
    · rcases List.mem_append.mp ht with h4 | h5
      · have hb := c6Tail_key_bounds p h4
        simp only [Bool.not_eq_true, decide_eq_false_iff_not]
        omega
      · rw [List.mem_singleton.mp h5]; simp
  have h4 : containsSlot ((10000000, (∅ : Finset Nat)) :: c6Tail
      ++ [(10250, ({11} : Finset Nat))]) 10250 = true := by
    rw [containsSlot, List.any_eq_true]
    refine ⟨(10250, {11}), ?_, by simp⟩
    exact List.mem_cons_of_mem _ (List.mem_append_right _ (List.mem_singleton_self _))
  rw [h1, h2, h3, h4]

/-! ## C3: stack capacity and root monotonicity -/

theorem nondecreasing_iff :
    ∀ l : List Nat, nondecreasing l = true ↔ l.Chain' (· ≤ ·)
  | [] => by simp [nondecreasing]
  | [a] => by simp [nondecreasing]
  | a :: b :: rest => by
    rw [nondecreasing, Bool.and_eq_true, List.chain'_cons, nondecreasing_iff (b :: rest)]
    simp

theorem pairwise_le_getLast? :
    ∀ (l : List Nat), l.Pairwise (· ≤ ·) → ∀ a, l.getLast? = some a → ∀ x ∈ l, x ≤ a := by
  intro l
  induction l with
  | nil => intro _ a h; simp at h
  | cons b rest ih =>
    intro hpw a hlast x hx
    rw [List.pairwise_cons] at hpw
    cases hr : rest with
    | nil =>
      subst hr
      simp only [List.getLast?_singleton, Option.some.injEq] at hlast
      rcases List.mem_cons.mp hx with h1 | h2
      · rw [h1, ← hlast]
      · simp at h2
    | cons c rest2 =>
      subst hr
      rw [List.getLast?_cons_cons] at hlast
      rcases List.mem_cons.mp hx with h1 | h2
      · exact h1 ▸ hpw.1 a (List.mem_of_getLast?_eq_some hlast)
      · exact ih hpw.2 a hlast x h2

theorem bumpFrom_length (depth : Nat) :
    ∀ (j : Nat) (l : List VoteRecord), (bumpFrom depth j l).length = l.length := by
  intro j l
  induction l generalizing j with
  | nil => rfl
  | cons v rest ih => rw [bumpFrom]; simp [ih]

theorem bumpFrom_map_slot (depth : Nat) :
    ∀ (j : Nat) (l : List VoteRecord),
      (bumpFrom depth j l).map (fun v => v.1.slot) = l.map (fun v => v.1.slot) := by
  intro j l
  induction l generalizing j with
  | nil => rfl
  | cons v rest ih =>
    rw [bumpFrom, List.map_cons, List.map_cons, ih]
    congr 1
    split <;> rfl

theorem doubleLockouts_length (l : List VoteRecord) :
    (doubleLockouts l).length = l.length := bumpFrom_length _ 0 l

theorem doubleLockouts_map_slot (l : List VoteRecord) :
    (doubleLockouts l).map (fun v => v.1.slot) = l.map (fun v => v.1.slot) :=
  bumpFrom_map_slot _ 0 l

theorem rootLE_refl (o : Option Nat) : rootLE o o := by
  cases o with
  | none => exact trivial
  | some r => exact ⟨r, rfl, Nat.le_refl r⟩

theorem rootLE_trans {a b c : Option Nat} (h1 : rootLE a b) (h2 : rootLE b c) :
    rootLE a c := by
  cases a with
  | none => exact trivial
  | some r =>
    obtain ⟨r2, hb, hr2⟩ := h1
    subst hb
    obtain ⟨r3, hc, hr3⟩ := h2
    exact ⟨r3, hc, Nat.le_trans hr2 hr3⟩

theorem processVoteSlot_state (t : Tower) (addr v sig : Nat) (anc : AncMap) :
    (processVoteSlot t addr v sig anc).2 =
      { votes := doubleLockouts
          ((if (popExpiredVotes v t.votes).length = MAX_LOCKOUT_HISTORY
            then (popExpiredVotes v t.votes).drop 1
            else popExpiredVotes v t.votes) ++ [(Lockout.new v, sig)])
        root_slot :=
          if (popExpiredVotes v t.votes).length = MAX_LOCKOUT_HISTORY then
            match (popExpiredVotes v t.votes).head? with
            | some f => some f.1.slot
            | none => t.root_slot
          else t.root_slot
        vote_history := t.vote_history } := rfl

theorem processVoteSlot_step (t : Tower) (addr v sig : Nat) (anc : AncMap)
    (hInv : TowerInv t) (hFeed : feedOK t v = true) :
    TowerInv (processVoteSlot t addr v sig anc).2 ∧
    rootLE t.root_slot (processVoteSlot t addr v sig anc).2.root_slot ∧
    ((processVoteSlot t addr v sig anc).2.root_slot = t.root_slot ∨
      ((popExpiredVotes v t.votes).length = MAX_LOCKOUT_HISTORY ∧
        ∃ f, (popExpiredVotes v t.votes).head? = some f ∧
          (processVoteSlot t addr v sig anc).2.root_slot = some f.1.slot)) := by
  obtain ⟨hne, hlen, hchain, hroot⟩ := hInv
  have hpw : (t.votes.map (fun v => v.1.slot)).Pairwise (· ≤ ·) :=
    List.chain'_iff_pairwise.mp hchain
  obtain ⟨b, hb⟩ := Option.isSome_iff_exists.mp (List.getLast?_isSome.mpr hne)
  have hlv : t.lastVotedSlot = some b.1.slot := by
    rw [Tower.lastVotedSlot, Tower.lastLockout, hb]; rfl
  have hbv : b.1.slot < v := by
    rw [feedOK, hlv] at hFeed
    exact of_decide_eq_true hFeed
  have hlastSlot : (t.votes.map (fun v => v.1.slot)).getLast? = some b.1.slot := by
    rw [List.getLast?_map, hb]
    rfl
  have hall_le : ∀ x ∈ t.votes.map (fun v => v.1.slot), x ≤ b.1.slot :=
    pairwise_le_getLast? _ hpw _ hlastSlot
  have hdecomp := popExpiredVotes_decomp v t.votes
  have hkept_sub : List.Sublist (popExpiredVotes v t.votes) t.votes := by
    conv_rhs => rw [hdecomp]
    exact List.sublist_append_left _ _
  have hkept_len : (popExpiredVotes v t.votes).length ≤ t.votes.length :=
    hkept_sub.length_le
  have hkept_pw : ((popExpiredVotes v t.votes).map (fun v => v.1.slot)).Pairwise (· ≤ ·) :=
    hpw.sublist (hkept_sub.map _)
  have hkept_lt : ∀ x ∈ (popExpiredVotes v t.votes).map (fun v => v.1.slot), x < v := by
    intro x hx
    exact lt_of_le_of_lt (hall_le x ((hkept_sub.map _).subset hx)) hbv
  have hroot_le : ∀ r, t.root_slot = some r → ∀ x ∈ t.votes.map (fun v => v.1.slot), r ≤ x := by
    intro r hr x hx
    rw [rootBelow, hr] at hroot
    have := List.all_eq_true.mp hroot x hx
    exact of_decide_eq_true this
  rw [processVoteSlot_state]
  by_cases hev : (popExpiredVotes v t.votes).length = MAX_LOCKOUT_HISTORY
  · -- eviction case
    cases hkc : popExpiredVotes v t.votes with
    | nil => rw [hkc] at hev; simp [MAX_LOCKOUT_HISTORY] at hev
    | cons f0 rest0 =>
      rw [hkc] at hev hkept_pw hkept_lt
      simp only [hkc, hev, if_true, List.head?_cons, List.drop_one, List.tail_cons]
      have hr0len : rest0.length = MAX_LOCKOUT_HISTORY - 1 := by
        simp only [List.length_cons] at hev
        omega
      rw [List.map_cons, List.pairwise_cons] at hkept_pw
      have hslots : (doubleLockouts (rest0 ++ [(Lockout.new v, sig)])).map
          (fun v => v.1.slot) = rest0.map (fun v => v.1.slot) ++ [v] := by
        rw [doubleLockouts_map_slot, List.map_append]
        rfl
      have hrest_lt : ∀ x ∈ rest0.map (fun v => v.1.slot), x < v := by
        intro x hx
        exact hkept_lt x (List.mem_cons_of_mem _ hx)
      have hf0v : f0.1.slot < v :=
        hkept_lt f0.1.slot (List.mem_cons_self _ _)
      refine ⟨⟨?_, ?_, ?_, ?_⟩, ?_, ?_⟩
      · -- non-empty
        intro h0
        have := congrArg List.length h0
        rw [doubleLockouts_length, List.length_append] at this
        simp at this
      · -- length bound
        rw [doubleLockouts_length, List.length_append, hr0len]
        simp [MAX_LOCKOUT_HISTORY]
      · -- sortedness
        rw [List.chain'_iff_pairwise]
        show (Tower.mk (doubleLockouts (rest0 ++ [(Lockout.new v, sig)])) _ _
          |>.votes.map (fun v => v.1.slot)).Pairwise (· ≤ ·)
        rw [hslots]
        rw [List.pairwise_append]
        refine ⟨hkept_pw.2, List.pairwise_singleton _ _, ?_⟩
        intro x hx y hy
        rw [List.mem_singleton.mp hy]
        exact Nat.le_of_lt (hrest_lt x hx)
      · -- rootBelow
        show rootBelow (Tower.mk _ (some f0.1.slot) _) = true
        rw [rootBelow]
        show (Tower.mk (doubleLockouts (rest0 ++ [(Lockout.new v, sig)])) _ _
          |>.votes.map (fun v => v.1.slot)).all (fun s => f0.1.slot ≤ s) = true
        rw [hslots, List.all_eq_true]
        intro x hx
        rcases List.mem_append.mp hx with h1 | h2
        · exact decide_eq_true (hkept_pw.1 x h1)
        · rw [List.mem_singleton.mp h2]
          exact decide_eq_true (Nat.le_of_lt hf0v)
      · -- rootLE
        show rootLE t.root_slot (some f0.1.slot)
        cases hr : t.root_slot with
        | none => exact trivial
        | some r =>
          refine ⟨f0.1.slot, rfl, ?_⟩
          apply hroot_le r hr
          rw [List.mem_map]
          exact ⟨f0, (hkept_sub.subset (hkc ▸ List.mem_cons_self _ _)), rfl⟩
      · -- disjunction: eviction happened
        exact Or.inr ⟨trivial, f0, rfl, rfl⟩
  · -- no eviction
    simp only [hev, if_false]
    have hslots : (doubleLockouts (popExpiredVotes v t.votes ++ [(Lockout.new v, sig)])).map
        (fun v => v.1.slot) = (popExpiredVotes v t.votes).map (fun v => v.1.slot) ++ [v] := by
      rw [doubleLockouts_map_slot, List.map_append]
      rfl
    refine ⟨⟨?_, ?_, ?_, ?_⟩, ?_, Or.inl trivial⟩
    · intro h0
      have := congrArg List.length h0
      rw [doubleLockouts_length, List.length_append] at this
      simp at this
    · rw [doubleLockouts_length, List.length_append]
      have : (popExpiredVotes v t.votes).length ≤ MAX_LOCKOUT_HISTORY := by
        exact Nat.le_trans hkept_len hlen
      simp only [List.length_singleton]
      omega
    · rw [List.chain'_iff_pairwise]
      show (Tower.mk (doubleLockouts (popExpiredVotes v t.votes ++ [(Lockout.new v, sig)])) _ _
        |>.votes.map (fun v => v.1.slot)).Pairwise (· ≤ ·)
      rw [hslots, List.pairwise_append]
      refine ⟨hkept_pw, List.pairwise_singleton _ _, ?_⟩
      intro x hx y hy
      rw [List.mem_singleton.mp hy]
      exact Nat.le_of_lt (hkept_lt x hx)
    · show rootBelow (Tower.mk _ t.root_slot _) = true
      rw [rootBelow]
      cases hr : t.root_slot with
      | none => rfl
      | some r =>
        show (Tower.mk (doubleLockouts (popExpiredVotes v t.votes ++ [(Lockout.new v, sig)])) _ _
          |>.votes.map (fun v => v.1.slot)).all (fun s => r ≤ s) = true
        rw [hslots, List.all_eq_true]
        intro x hx
        rcases List.mem_append.mp hx with h1 | h2
        · exact decide_eq_true (hroot_le r hr x ((hkept_sub.map _).subset h1))
        · rw [List.mem_singleton.mp h2]
          refine decide_eq_true (Nat.le_of_lt (Nat.lt_of_le_of_lt ?_ hbv))
          exact hroot_le r hr b.1.slot
            (List.mem_map_of_mem _ (List.mem_of_getLast?_eq_some hb))
    · show rootLE t.root_slot t.root_slot
      exact rootLE_refl _

theorem processVoteSlot_length (t : Tower) (addr v sig : Nat) (anc : AncMap)
    (hlen : t.votes.length ≤ MAX_LOCKOUT_HISTORY) :
    (processVoteSlot t addr v sig anc).2.votes.length ≤ MAX_LOCKOUT_HISTORY := by
  have hkept : (popExpiredVotes v t.votes).length ≤ t.votes.length := by
    conv_rhs => rw [popExpiredVotes_decomp v t.votes]
    rw [List.length_append]
    omega
  have hM : MAX_LOCKOUT_HISTORY = 31 := rfl
  rw [processVoteSlot_state]
  show (doubleLockouts _).length ≤ MAX_LOCKOUT_HISTORY
  rw [doubleLockouts_length, List.length_append]
  by_cases hev : (popExpiredVotes v t.votes).length = MAX_LOCKOUT_HISTORY
  · rw [if_pos hev, List.length_drop, hev]
    simp [hM]
  · rw [if_neg hev]
    simp only [List.length_singleton]
    omega

theorem runCalls_length :
    ∀ (cs : List VoteCall) (t : Tower), t.votes.length ≤ MAX_LOCKOUT_HISTORY →
      (runCalls t cs).votes.length ≤ MAX_LOCKOUT_HISTORY := by
  intro cs
  induction cs with
  | nil => intro t h; exact h
  | cons c cs ih =>
    intro t h
    exact ih _ (processVoteSlot_length t c.1 c.2.1 c.2.2.1 c.2.2.2 h)

/-- C3 (amended): the stack length never exceeds `MAX_LOCKOUT_HISTORY`
across every sequence of `registerVote` calls, with no precondition beyond
starting within capacity (first conjunct, quantified over arbitrary towers
and call sequences).  Provided every call's vote slot is strictly above the
tower's `lastVotedSlot()` at the time of the call — the event loop's filter
guarantees exactly this — the tower invariant is preserved and `root_slot`
is monotonically non-decreasing, being set (to the evicted front entry's
slot) only when the post-expiry stack is at full capacity.  Without the
slot filter `root_slot` can decrease (see the counterexample). -/
theorem tower_capacity_and_root_monotonicity (t : Tower) (cs : List VoteCall)
    (hInv : TowerInv t) (hvalid : validCalls t cs = true) :
    (∀ (t2 : Tower) (cs2 : List VoteCall),
      t2.votes.length ≤ MAX_LOCKOUT_HISTORY →
        (runCalls t2 cs2).votes.length ≤ MAX_LOCKOUT_HISTORY) ∧
    TowerInv (runCalls t cs) ∧
    (runCalls t cs).votes.length ≤ MAX_LOCKOUT_HISTORY ∧
    rootLE t.root_slot (runCalls t cs).root_slot ∧
    (∀ t2 addr v sig anc, TowerInv t2 → feedOK t2 v = true →
      ((processVoteSlot t2 addr v sig anc).2.root_slot = t2.root_slot ∨
        ((popExpiredVotes v t2.votes).length = MAX_LOCKOUT_HISTORY ∧
          ∃ f, (popExpiredVotes v t2.votes).head? = some f ∧
            (processVoteSlot t2 addr v sig anc).2.root_slot = some f.1.slot))) := by
  have hcap := fun t2 cs2 h => runCalls_length cs2 t2 h
  have hstep := fun t2 addr v sig anc h1 h2 =>
    (processVoteSlot_step t2 addr v sig anc h1 h2).2.2
  induction cs generalizing t with
  | nil =>
    exact ⟨hcap, hInv, hInv.2.1, rootLE_refl _, hstep⟩
  | cons c cs ih =>
    rw [validCalls, Bool.and_eq_true] at hvalid
    obtain ⟨hInv2, hr2, _⟩ :=
      processVoteSlot_step t c.1 c.2.1 c.2.2.1 c.2.2.2 hInv hvalid.1
    obtain ⟨_, hI, hL, hR, _⟩ := ih _ hInv2 hvalid.2
    exact ⟨hcap, hI, hL, rootLE_trans hr2 hR, hstep⟩

/-- Witness for C3 (amended): the unconditional capacity conjunct applied to
the unfiltered sequence 100, 5, 35 on the default tower, which the event
loop's filter would reject, plus the filtered-sequence conclusion for votes
1 then 2. -/
theorem tower_capacity_and_root_monotonicity_witness :
    (runCalls towerDefault
      [(0, 100, 0, []), (0, 5, 0, []), (0, 35, 0, [])]).votes.length
        ≤ MAX_LOCKOUT_HISTORY ∧
    (runCalls towerDefault [(0, 1, 0, []), (0, 2, 0, [])]).votes.length
      ≤ MAX_LOCKOUT_HISTORY := by
  have h := tower_capacity_and_root_monotonicity towerDefault
    [(0, 1, 0, []), (0, 2, 0, [])]
    (by
      unfold TowerInv
      exact ⟨by decide, by decide, (nondecreasing_iff _).mp (by decide), by decide⟩)
    (by decide)
  exact ⟨h.1 towerDefault [(0, 100, 0, []), (0, 5, 0, []), (0, 35, 0, [])] (by decide),
    h.2.2.1⟩

set_option maxRecDepth 100000 in
/-- Counterexample to C3 as stated: over arbitrary `registerVote` sequences
`root_slot` is not monotone.  Voting 100, then 5 (inside 100's lockout, so
nothing expires), then 6..34, fills the stack with slots 100,5,6,...,34;
the vote for 35 evicts the front entry 100 (`root_slot = some 100`) and the
vote for 36 then evicts the front entry 5, moving `root_slot` backwards from
`some 100` to `some 5`. -/
theorem root_slot_can_move_backward :
    (runVoteSlots towerDefault
      ([100, 5] ++ (List.range 29).map (fun i => i + 6) ++ [35])).root_slot
        = some 100 ∧
    (runVoteSlots towerDefault
      ([100, 5] ++ (List.range 29).map (fun i => i + 6) ++ [35, 36])).root_slot
        = some 5 := by
  constructor <;> decide
